import Mathlib

/-!
Verification of the matching engine of the Resume/Job-Description analyzer.

The definitions below are a shallow embedding of the Python functions in
`utils.py` (extraction of emails, years of experience and skills, the
similarity scorer, the resonant-skill picker) and of the ranking step of
`resumebot.py`.  Python strings are modelled as Lean `String` / `List Char`
(case mapping is modelled for ASCII, which is what both the skill lists and
the regular expressions in the source exercise), Python numbers as `ℚ`
(exact rationals standing for Python floats; `round(x, 1)` is modelled as
exact round-half-to-even at one decimal), and fallible operations as
`Option` / `Except`.  Scanning loops take an explicit fuel argument, always
called with fuel at least the length of the scanned list, which each step
decreases by one while consuming at least one character, so the fuel never
runs out; this keeps every definition a structural recursion that the
kernel can evaluate on concrete inputs.
-/

/-- Python whitespace class: the characters matched by `\s` (ASCII). -/
def pySpace (c : Char) : Bool :=
  c = ' ' || c = '\t' || c = '\n' || c = '\r' || c = '\x0b' || c = '\x0c'

/-- Lower-case a Python string (`str.lower`), modelled on ASCII letters. -/
def lowerL (s : String) : List Char :=
  s.data.map Char.toLower

/-- Numeric value of a list of decimal digit characters. -/
def natOfDigits (ds : List Char) : Nat :=
  ds.foldl (fun a c => 10 * a + (c.toNat - 48)) 0

/-- Auxiliary scan for `pyCount` with a non-empty needle: at each position,
either a (non-overlapping) occurrence starts and the scan jumps past it, or
the scan advances one character. -/
def pyCountAux (nee : List Char) : Nat → List Char → Nat
  | _, [] => 0
  | 0, _ => 0
  | fuel + 1, c :: t =>
    if nee.isPrefixOf (c :: t) then 1 + pyCountAux nee fuel (t.drop (nee.length - 1))
    else pyCountAux nee fuel t

/-- Python `hay.count(nee)`: number of non-overlapping occurrences of `nee`
in `hay`, scanning from the left; an empty needle counts `len(hay) + 1`
occurrences, as in Python. -/
def pyCount (hay nee : List Char) : Nat :=
  if nee.isEmpty then hay.length + 1 else pyCountAux nee hay.length hay

/-- Python `int(re.search(r"\d+", s).group(0))`: the first maximal run of
decimal digits in `s`, or `none` when there is no digit (in the source the
error of the failed search is caught and `0` is used). -/
def firstNat (s : String) : Option Nat :=
  match (s.data.dropWhile (fun c => !c.isDigit)).takeWhile Char.isDigit with
  | [] => none
  | ds => some (natOfDigits ds)

/-- Value of a capture of the regex group `(\d+(?:\.\d+)?)` (Python
`float` applied to such a capture, modelled exactly in `ℚ`): the leading
digit run, plus the fractional digit run after a dot when present. -/
def parseDec (s : String) : ℚ :=
  let ds := s.data.takeWhile Char.isDigit
  let rest := s.data.dropWhile Char.isDigit
  if rest.head? = some '.' then
    (natOfDigits ds : ℚ) +
      (natOfDigits (rest.tail.takeWhile Char.isDigit) : ℚ) /
        (10 : ℚ) ^ (rest.tail.takeWhile Char.isDigit).length
  else (natOfDigits ds : ℚ)

/-- Round-half-to-even to an integer (Python `round` on an exact value). -/
def rhe (x : ℚ) : ℤ :=
  let f := ⌊x⌋
  let r := x - (f : ℚ)
  if r < 1 / 2 then f
  else if 1 / 2 < r then f + 1
  else if f % 2 = 0 then f else f + 1

/-- Python `round(x, 1)` modelled as exact round-half-to-even at one
decimal place. -/
def round1 (x : ℚ) : ℚ :=
  (rhe (10 * x) : ℚ) / 10

/-- Embedding of `utils.calculate_similarity_score`.  `resume_years` and
`jd_years` are the `str(...)` images of the (possibly malformed) year
inputs; `int(re.search(r"\d+", ...).group(0))` with its `except` clause is
`(firstNat _).getD 0`. -/
def calculate_similarity_score (resume_text jd_text : String)
    (jd_key_skills : List String) (resume_years jd_years : String) : ℚ :=
  let candidate_years : ℕ := (firstNat resume_years).getD 0
  let required_years : ℕ := (firstNat jd_years).getD 0
  let jd_skills : List (List Char) := jd_key_skills.map lowerL
  let resume_lower : List Char := lowerL resume_text
  let skill_appearances : ℕ :=
    jd_skills.countP (fun s => decide (0 < pyCount resume_lower s))
  if 0 < jd_skills.length ∧ skill_appearances = 0 then 0
  else
    let exp_score : ℚ :=
      if required_years = 0 ∨ required_years ≤ candidate_years then 100
      else (candidate_years : ℚ) / (required_years : ℚ) * 100
    let total_occurrences : ℕ :=
      (jd_skills.map (fun s => min 3 (pyCount resume_lower s))).sum
    let max_possible : ℕ := 3 * jd_skills.length
    let skills_score : ℚ :=
      if max_possible ≠ 0 then
        ((total_occurrences : ℚ) / (max_possible : ℚ)) * 100
      else 0
    let overall_score := (4 / 10 : ℚ) * exp_score + (6 / 10 : ℚ) * skills_score
    min overall_score 100

/-- Embedding of `utils.get_similarity_category`. -/
def get_similarity_category (score : ℚ) : String :=
  if 90 ≤ score then "Best"
  else if 70 ≤ score then "Better"
  else if 50 ≤ score then "Good"
  else if 30 ≤ score then "Average"
  else if 10 ≤ score then "Bad"
  else "Worst"

/-- Loop of `utils.get_resonant_skill`: running maximum count and current
best skill; a later skill replaces the current one only on a strictly
larger count. -/
def resonantAux (cnt : List Char → ℕ) : List (List Char) → ℕ → Option (List Char) → Option (List Char)
  | [], _, res => res
  | s :: t, mx, res =>
    if mx < cnt s then resonantAux cnt t (cnt s) (some s)
    else resonantAux cnt t mx res

/-- Embedding of `utils.get_resonant_skill`. -/
def get_resonant_skill (resume_text : String) (jd_key_skills : List String) : Option String :=
  (resonantAux (fun s => pyCount (lowerL resume_text) s) (jd_key_skills.map lowerL) 0 none).map
    (fun l => String.mk l)

/-- Spec §4.4 step 2, the zero-evidence gate condition as the spec words
it: the required-skill list is non-empty and no required skill occurs
(case-insensitively, occurrence count `> 0`) in the resume text. -/
def zeroEvidenceGate (resume_text : String) (jd_key_skills : List String) : Prop :=
  jd_key_skills ≠ [] ∧ ∀ s ∈ jd_key_skills, pyCount (lowerL resume_text) (lowerL s) = 0

instance (rt : String) (sk : List String) : Decidable (zeroEvidenceGate rt sk) := by
  unfold zeroEvidenceGate
  infer_instance

/-- Spec §4.4 step 3, the experience component as the spec words it. -/
def expComponentSpec (candidateYears required : ℕ) : ℚ :=
  if required = 0 then 100
  else if required ≤ candidateYears then 100
  else (candidateYears : ℚ) / (required : ℚ) * 100

/-- Spec §4.4 step 4, the skills component as the spec words it: capped
occurrence counts, summed, divided by the maximum possible, times 100;
`0` for an empty required-skill list. -/
def skillsComponentSpec (resume_text : String) (jd_key_skills : List String) : ℚ :=
  if jd_key_skills = [] then 0
  else
    ((((jd_key_skills.map lowerL).map
        (fun s => min 3 (pyCount (lowerL resume_text) s))).sum : ℕ) : ℚ)
      / ((3 * (jd_key_skills.map lowerL).length : ℕ) : ℚ) * 100

/-- Maximum substring-occurrence count over a list of (lowered) skills. -/
def specMaxCount (cnt : List Char → ℕ) (l : List (List Char)) : ℕ :=
  (l.map cnt).foldr max 0

/-- Spec §4.4 step 7 with the case fix the code forces: the resonant skill
is the first (in requirement order) lower-cased required skill attaining
the maximal uncapped occurrence count in the lower-cased resume text, and
`none` when all counts are zero. -/
def resonantSpec (resume_text : String) (jd_key_skills : List String) : Option String :=
  if specMaxCount (fun s => pyCount (lowerL resume_text) s) (jd_key_skills.map lowerL) = 0 then
    none
  else
    ((jd_key_skills.map lowerL).find?
        (fun s => pyCount (lowerL resume_text) s ==
          specMaxCount (fun u => pyCount (lowerL resume_text) u) (jd_key_skills.map lowerL))).map
      (fun l => String.mk l)

/-- One entry of the `resume_results` / `jd_results` lists built in
`resumebot.run_smart_resume_analyzer` before ranking. -/
structure MatchResult where
  file_name : String
  score : ℚ
  category : String
  emails : List String
  resonant_skill : Option String
deriving DecidableEq

/-- Comparison used by the ranking step: descending by score. -/
def scoreGE (a b : MatchResult) : Prop :=
  b.score ≤ a.score

instance : DecidableRel scoreGE :=
  fun a b => inferInstanceAs (Decidable (b.score ≤ a.score))

instance : IsTotal MatchResult scoreGE :=
  ⟨fun a b => le_total b.score a.score⟩

instance : IsTrans MatchResult scoreGE :=
  ⟨fun _ _ _ h1 h2 => le_trans h2 h1⟩

/-- Embedding of the ranking step of `resumebot.py`
(`sorted(results, key=lambda x: x["score"], reverse=True)`): Python's
`sorted` is a stable sort, modelled by stable insertion sort on the
descending-by-score relation. -/
def rankResults (results : List MatchResult) : List MatchResult :=
  results.insertionSort scoreGE

/-- Python `text.split()`: split on runs of whitespace, dropping empty
pieces; the fuel starts at the length of the list and each step consumes
at least one character. -/
def pySplitWsAux : Nat → List Char → List (List Char)
  | _, [] => []
  | 0, _ => []
  | fuel + 1, l =>
    let l1 := l.dropWhile pySpace
    match l1 with
    | [] => []
    | _ =>
      (l1.takeWhile (fun c => !pySpace c)) ::
        pySplitWsAux fuel (l1.dropWhile (fun c => !pySpace c))

/-- Python `text.split()`. -/
def pySplitWs (l : List Char) : List (List Char) :=
  pySplitWsAux l.length l

/-- Python `" ".join(parts)`. -/
def joinSpace : List (List Char) → List Char
  | [] => []
  | [x] => x
  | x :: y :: t => x ++ ' ' :: joinSpace (y :: t)

/-- The whitespace normalization `" ".join(text.split())` performed first
by `utils.extract_skills_from_text`. -/
def normalizeWs (s : String) : List Char :=
  joinSpace (pySplitWs s.data)

/-- Case-insensitive literal match at the head of a list (Python regex
alternatives under `re.IGNORECASE`, ASCII case folding). -/
def ciPrefix (pat : List Char) (l : List Char) : Bool :=
  (pat.map Char.toLower).isPrefixOf (l.map Char.toLower)

/-- Header vocabulary of `utils.extract_skills_from_text`, in source
order (the order of the regex alternation). -/
def header_keywords : List String :=
  ["skills", "skill set", "technical skills", "areas of expertise",
    "competencies", "proficiencies", "abilities", "tools", "technologies"]

/-- Semantics of the regex tail `\s*(.+)` (no DOTALL): greedily skip
whitespace, then capture a maximal non-empty run of non-newline
characters; when everything left is whitespace, the backtracking engine
gives back the last non-newline whitespace character as the capture.
Returns the capture and the remainder after the match. -/
def dotPlusCapture (r2 : List Char) : Option (List Char × List Char) :=
  let rest := r2.dropWhile pySpace
  match rest with
  | _ :: _ =>
    some (rest.takeWhile (fun c => c != '\n'), rest.dropWhile (fun c => c != '\n'))
  | [] =>
    let ws := r2.reverse.dropWhile (fun c => c == '\n')
    match ws with
    | [] => none
    | c :: _ => some ([c], (r2.reverse.takeWhile (fun c => c == '\n')).reverse)

/-- Try one header alternative at the current position: the keyword
(case-insensitive), then `\s*`, then `:` or `-`, then `\s*(.+)`. -/
def headerTail (k : List Char) (l : List Char) : Option (List Char × List Char) :=
  if ciPrefix k l then
    match (l.drop k.length).dropWhile pySpace with
    | c :: r2 => if c = ':' ∨ c = '-' then dotPlusCapture r2 else none
    | [] => none
  else none

/-- Try the header alternatives of a keyword list, in the order of the
regex alternation, at the current position. -/
def tryHeaderList : List String → List Char → Option (List Char × List Char)
  | [], _ => none
  | k :: ks, l =>
    match headerTail k.data l with
    | some r => some r
    | none => tryHeaderList ks l

/-- Try all header alternatives at the current position. -/
def tryHeaderAt (l : List Char) : Option (List Char × List Char) :=
  tryHeaderList header_keywords l

/-- Scan of `re.findall` for the header pattern: leftmost matches,
continuing after each match; each match consumes at least the keyword, so
fuel `length + 1` never runs out. -/
def findSkillCaptures : Nat → List Char → List (List Char)
  | 0, _ => []
  | fuel + 1, l =>
    match l with
    | [] => []
    | _ :: t =>
      match tryHeaderAt l with
      | some (cap, rem) => cap :: findSkillCaptures fuel rem
      | none => findSkillCaptures fuel t

/-- Python `re.split(r'[,;\n]', l)`: split on the three delimiters,
keeping empty pieces. -/
def splitDelims (l : List Char) : List (List Char) :=
  l.foldr
    (fun c acc =>
      if c = ',' ∨ c = ';' ∨ c = '\n' then [] :: acc
      else
        match acc with
        | h :: t2 => (c :: h) :: t2
        | [] => [[c]])
    [[]]

/-- Python `str.strip()`. -/
def pyStrip (l : List Char) : List Char :=
  ((l.dropWhile pySpace).reverse.dropWhile pySpace).reverse

/-- Embedding of `utils.extract_skills_from_text`.  The final Python
`list(set(skills))` has unspecified element order; it is modelled as
deduplication, and theorems about the result only use set-level
(membership) statements. -/
def extract_skills_from_text (text : String) : List String :=
  let normalized := normalizeWs text
  let captures := findSkillCaptures (normalized.length + 1) normalized
  let skills :=
    (captures.map (fun m => ((splitDelims m).map pyStrip).filter (fun p => p ≠ []))).join
  (skills.map (fun l => String.mk l)).dedup

/-- First leftmost header match of the pattern (the scan of the amended
claim: a single capture running to the end of the text). -/
def scanFirstHeader : List Char → Option (List Char × List Char)
  | [] => none
  | c :: t =>
    match tryHeaderAt (c :: t) with
    | some r => some r
    | none => scanFirstHeader t

/-- Amended-claim reference: collapse whitespace runs, find the first
header phrase followed by a colon or hyphen, capture everything after it
up to the end of the text, split on comma/semicolon/newline, trim, drop
empties, and return the resulting set. -/
def specSkillsAmended (text : String) : List String :=
  match scanFirstHeader (normalizeWs text) with
  | none => []
  | some (cap, _) =>
    ((((splitDelims cap).map pyStrip).filter (fun p => p ≠ [])).map
        (fun l => String.mk l)).dedup

/-- Character class `[a-zA-Z0-9._%+-]` of the email regex local part. -/
def localClass (c : Char) : Bool :=
  c.isAlpha || c.isDigit || c = '.' || c = '_' || c = '%' || c = '+' || c = '-'

/-- Character class `[a-zA-Z0-9.-]` of the email regex domain part. -/
def domClass (c : Char) : Bool :=
  c.isAlpha || c.isDigit || c = '.' || c = '-'

/-- Remainders after each greedy iteration of `(?:<class>\s*)` starting at
the current position, in iteration order (so the backtracking engine tries
them from last to first).  Each iteration consumes at least the class
character, so fuel `length` never runs out. -/
def unitRemainders (cls : Char → Bool) : Nat → List Char → List (List Char)
  | 0, _ => []
  | fuel + 1, l =>
    match l with
    | [] => []
    | c :: t =>
      if cls c then
        (t.dropWhile pySpace) :: unitRemainders cls fuel (t.dropWhile pySpace)
      else []

/-- First `some` value of `f` over a list (the backtracking engine taking
the first alternative that lets the rest of the pattern succeed). -/
def firstSome (f : List Char → Option (List Char)) : List (List Char) → Option (List Char)
  | [] => none
  | a :: t =>
    match f a with
    | some b => some b
    | none => firstSome f t

/-- Tail `\.\s*[a-zA-Z]{2,}` of the email regex at the current position:
a literal dot, optional whitespace, then at least two letters (greedy).
Returns the remainder after the match. -/
def domTailAt (r : List Char) : Option (List Char) :=
  match r with
  | '.' :: r2 =>
    let r3 := r2.dropWhile pySpace
    if 2 ≤ (r3.takeWhile Char.isAlpha).length then
      some (r3.drop (r3.takeWhile Char.isAlpha).length)
    else none
  | _ => none

/-- Match of the email regex
`(?:[a-zA-Z0-9._%+-]\s*)+@\s*(?:(?:[a-zA-Z0-9.-]\s*)+\.\s*[a-zA-Z]{2,})`
anchored at the current position, following Python's leftmost greedy
backtracking: the local-part loop is effectively atomic (after the
maximal run the next character must be `@`; shorter runs leave the cursor
on a class character or whitespace, never on `@`), while the domain loop
genuinely backtracks, trying unit boundaries from longest to shortest
until `\.\s*[a-zA-Z]{2,}` matches.  Returns the remainder after the
match. -/
def tryEmail (l : List Char) : Option (List Char) :=
  match (unitRemainders localClass l.length l).getLast? with
  | none => none
  | some rN =>
    match rN with
    | '@' :: r =>
      let r2 := r.dropWhile pySpace
      firstSome domTailAt (unitRemainders domClass r2.length r2).reverse
    | _ => none

/-- Scan of `re.findall` for the email pattern: leftmost matches, each
consuming at least one character, continuing after every match. -/
def findEmails : Nat → List Char → List (List Char)
  | 0, _ => []
  | fuel + 1, l =>
    match l with
    | [] => []
    | _ :: t =>
      match tryEmail l with
      | some rem => (l.take (l.length - rem.length)) :: findEmails fuel rem
      | none => findEmails fuel t

/-- Embedding of `utils.extract_emails`: the regex matches in text order
(`re.findall` returns a list, not a set), each with all whitespace
removed (`re.sub(r'\s+', '', match)`). -/
def extract_emails (text : String) : List String :=
  (findEmails (text.data.length + 1) text.data).map
    (fun m => String.mk (m.filter (fun c => !pySpace c)))

/-- Alternation `(?:years?|yrs?)` of the explicit-experience regex,
case-insensitive; returns the remainder after the keyword. -/
def yearsKw (l : List Char) : Option (List Char) :=
  if ciPrefix "year".data l then
    match l.drop 4 with
    | 's' :: r2 => some r2
    | 'S' :: r2 => some r2
    | r => some r
  else if ciPrefix "yr".data l then
    match l.drop 2 with
    | 's' :: r2 => some r2
    | 'S' :: r2 => some r2
    | r => some r
  else none

/-- Optional group `(?:of\s*experience|exp)?` of the explicit-experience
regex; returns the remainder (unchanged when neither alternative
matches). -/
def ofExpKw (l : List Char) : List Char :=
  if ciPrefix "of".data l then
    if ciPrefix "experience".data ((l.drop 2).dropWhile pySpace) then
      ((l.drop 2).dropWhile pySpace).drop 10
    else if ciPrefix "exp".data l then l.drop 3
    else l
  else if ciPrefix "exp".data l then l.drop 3
  else l

/-- Match of the explicit-experience regex
`(\d+(?:\.\d+)?)\+?\s*(?:years?|yrs?)\s*(?:of\s*experience|exp)?`
anchored at the current position (each quantifier here is effectively
atomic: giving characters back can never make the next literal match).
Returns the capture (group 1, the number) and the remainder after the
whole match.  `fracPart` handles the optional `(?:\.\d+)?`: taken only
when a dot directly followed by a digit is present; it returns the
fraction characters and the remainder. -/
def fracPart (r : List Char) : List Char × List Char :=
  if r.head? = some '.' ∧ ¬(r.tail.takeWhile Char.isDigit).isEmpty then
    ('.' :: r.tail.takeWhile Char.isDigit, r.tail.drop (r.tail.takeWhile Char.isDigit).length)
  else ([], r)

/-- Match of the explicit-experience regex anchored at the current
position, returning group 1 and the remainder (see the comment above
`fracPart`). -/
def tryExplicit (l : List Char) : Option (String × List Char) :=
  let ds := l.takeWhile Char.isDigit
  if ds.isEmpty then none
  else
    let fr := fracPart (l.drop ds.length)
    let r4 := if fr.2.head? = some '+' then fr.2.tail else fr.2
    match yearsKw (r4.dropWhile pySpace) with
    | none => none
    | some r6 => some (String.mk (ds ++ fr.1), ofExpKw (r6.dropWhile pySpace))

/-- Scan of `re.findall` for the explicit-experience pattern (the list of
group-1 captures, leftmost, non-overlapping). -/
def findExplicit : Nat → List Char → List String
  | 0, _ => []
  | fuel + 1, l =>
    match l with
    | [] => []
    | _ :: t =>
      match tryExplicit l with
      | some (cap, rem) => cap :: findExplicit fuel rem
      | none => findExplicit fuel t

/-- Match of `[A-Za-z]{3,}\.?\s+\d{4}` (one date-range bound) anchored at
the current position: at least three letters, optional period, at least
one whitespace, exactly four digits.  Returns the matched substring and
the remainder. -/
def monthYearAt (l : List Char) : Option (List Char × List Char) :=
  if (l.takeWhile Char.isAlpha).length < 3 then none
  else
    let ls := l.takeWhile Char.isAlpha
    let dotPart : List Char × List Char :=
      match l.drop ls.length with
      | '.' :: r => (['.'], r)
      | r => ([], r)
    let sp := dotPart.2.takeWhile pySpace
    if sp.isEmpty then none
    else
      let r3 := dotPart.2.drop sp.length
      if 4 ≤ (r3.takeWhile Char.isDigit).length then
        some (ls ++ dotPart.1 ++ sp ++ r3.take 4, r3.drop 4)
      else none

/-- Match of the date-range regex
`([A-Za-z]{3,}\.?\s+\d{4})\s*(?:–|-)\s*(Present|[A-Za-z]{3,}\.?\s+\d{4})`
anchored at the current position (the alternative `Present` is tried
first, so any text starting case-insensitively with "present" captures
exactly those seven characters).  Returns the two captures and the
remainder. -/
def tryDateRange (l : List Char) : Option ((String × String) × List Char) :=
  match monthYearAt l with
  | none => none
  | some (cap1, r1) =>
    match r1.dropWhile pySpace with
    | c :: r3 =>
      if c = '–' ∨ c = '-' then
        let r4 := r3.dropWhile pySpace
        if ciPrefix "present".data r4 then
          some ((String.mk cap1, String.mk (r4.take 7)), r4.drop 7)
        else
          match monthYearAt r4 with
          | none => none
          | some (cap2, r5) => some ((String.mk cap1, String.mk cap2), r5)
      else none
    | [] => none

/-- Scan of `re.findall` for the date-range pattern (pairs of captures,
leftmost, non-overlapping). -/
def findDateRanges : Nat → List Char → List (String × String)
  | 0, _ => []
  | fuel + 1, l =>
    match l with
    | [] => []
    | _ :: t =>
      match tryDateRange l with
      | some (caps, rem) => caps :: findDateRanges fuel rem
      | none => findDateRanges fuel t

/-- Python `nee in hay` substring containment. -/
def pyContains (hay nee : List Char) : Bool :=
  decide (0 < pyCount hay nee)

/-- Ambient context of `extract_years_experience`: `parse` models
`dateutil.parser.parse` on the bound strings produced by the date-range
regex, returning a proleptic-Gregorian day number (dates compare and
subtract as their day numbers; a parse error is `none`, which the source
catches); `now` models `datetime.now()` as its day number. -/
structure ParseCtx where
  parse : String → Option ℤ
  now : ℤ

/-- One iteration of the interval loop of `extract_years_experience`:
parse the start bound; for the end bound use `now` when the lower-cased
capture contains "present", otherwise parse it; a failed parse skips the
whole range. -/
def rangeInterval (ctx : ParseCtx) (se : String × String) : Option (ℤ × ℤ) :=
  match ctx.parse se.1 with
  | none => none
  | some sd =>
    match (if pyContains (lowerL se.2) "present".data then some ctx.now
           else ctx.parse se.2) with
    | none => none
    | some ed => some (sd, ed)

/-- The interval list built by the loop of `extract_years_experience`
(ranges whose bounds fail to parse are skipped). -/
def parsedIntervals (ctx : ParseCtx) (text : String) : List (ℤ × ℤ) :=
  (findDateRanges (text.data.length + 1) text.data).filterMap (rangeInterval ctx)

/-- Python `intervals.sort(key=lambda interval: interval[0])`: stable
sort ascending by start. -/
def sortIntervals (l : List (ℤ × ℤ)) : List (ℤ × ℤ) :=
  l.insertionSort (fun a b => a.1 ≤ b.1)

/-- Body of the merge loop of `extract_years_experience`: compare the
current interval with `merged_intervals[-1]`, either extending it to the
later end or appending. -/
def mergeStep (merged : List (ℤ × ℤ)) (current : ℤ × ℤ) : List (ℤ × ℤ) :=
  let last := merged.getLast?.getD (0, 0)
  if current.1 ≤ last.2 then merged.dropLast ++ [(last.1, max last.2 current.2)]
  else merged ++ [current]

/-- The merge loop of `extract_years_experience` (`merged_intervals`
starts as `[intervals[0]]` and the loop runs over the rest). -/
def mergeLoop (l : List (ℤ × ℤ)) : List (ℤ × ℤ) :=
  match l with
  | [] => []
  | h :: t => t.foldl mergeStep [h]

/-- Maximum of a Python list of numbers (`max(years_list)`; the source
only calls it on a non-empty list). -/
def maxQ : List ℚ → ℚ
  | [] => 0
  | h :: t => t.foldl max h

/-- Embedding of `utils.extract_years_experience`.  Tier 1: all captures
of the explicit regex are of the form `\d+(\.\d+)?`, on which `float`
cannot raise, so the `except ValueError` branch is unreachable and the
tier returns the rounded maximum (the `Except`-level embedding
`extract_years_experienceE` below keeps that branch).  Tier 2: parse the
matched date ranges (skipping failures), sort by start, merge, sum the
day spans, divide by 365.25 and round; `none` when neither tier has
data. -/
def extract_years_experience (ctx : ParseCtx) (text : String) : Option ℚ :=
  let explicit_matches := findExplicit (text.data.length + 1) text.data
  if explicit_matches ≠ [] then
    some (round1 (maxQ (explicit_matches.map parseDec)))
  else
    let intervals := parsedIntervals ctx text
    if intervals ≠ [] then
      some (round1
        (((((mergeLoop (sortIntervals intervals)).map (fun p => p.2 - p.1)).sum : ℤ) : ℚ)
          / (365.25 : ℚ)))
    else none

/-- Merge of spec §4.2: walk the sorted intervals with a running merged
interval; an interval whose start is at most the running end extends the
running interval to the later end, otherwise the running interval is
emitted and the walk restarts from the new one. -/
def mergeSpec : (ℤ × ℤ) → List (ℤ × ℤ) → List (ℤ × ℤ)
  | r, [] => [r]
  | r, x :: xs => if x.1 ≤ r.2 then mergeSpec (r.1, max r.2 x.2) xs else r :: mergeSpec x xs

/-- Spec §4.2 reference definition of the experience extractor: tier 1
returns the maximum of all matched explicit values rounded to one
decimal; tier 2 sorts the parseable intervals by start, merges
overlapping/adjacent ones, sums the day spans, divides by 365.25 and
rounds; `unknown` (none) when neither tier yields data. -/
def extractYearsSpec (ctx : ParseCtx) (text : String) : Option ℚ :=
  let vals := (findExplicit (text.data.length + 1) text.data).map parseDec
  if vals ≠ [] then some (round1 (maxQ vals))
  else
    match sortIntervals (parsedIntervals ctx text) with
    | [] => none
    | h :: t =>
      some (round1
        (((((mergeSpec h t).map (fun p => p.2 - p.1)).sum : ℤ) : ℚ) / (365.25 : ℚ)))

/-- Proleptic-Gregorian day number of a civil date (valid for years from
1 onward; only differences of day numbers matter, matching Python
`datetime` subtraction). -/
def daysFromCivil (y m d : ℕ) : ℤ :=
  let y2 := if m ≤ 2 then y - 1 else y
  let era := y2 / 400
  let yoe := y2 % 400
  let mp := (m + 9) % 12
  let doy := (153 * mp + 2) / 5 + d - 1
  let doe := yoe * 365 + yoe / 4 - yoe / 100 + doy
  ((era * 146097 + doe : ℕ) : ℤ)

/-- Month names and abbreviations recognized by the `dateutil` parser
info, lower-cased. -/
def monthTable : List (String × ℕ) :=
  [("jan", 1), ("january", 1), ("feb", 2), ("february", 2), ("mar", 3), ("march", 3),
    ("apr", 4), ("april", 4), ("may", 5), ("jun", 6), ("june", 6), ("jul", 7), ("july", 7),
    ("aug", 8), ("august", 8), ("sep", 9), ("sept", 9), ("september", 9), ("oct", 10),
    ("october", 10), ("nov", 11), ("november", 11), ("dec", 12), ("december", 12)]

/-- Model of `dateutil.parser.parse` (a dependency of the source, outside
this repository) restricted to the `Month Year` bound strings produced by
the date-range regex: a recognized month name or abbreviation, an
optional period, whitespace, and a four-digit year parse to that month's
date; the day of month defaults to the current day (`defaultDay`), as
dateutil fills missing fields from today's date.  Any other string
(e.g. an unrecognized word) raises in dateutil, modelled as `none`. -/
def dateutilParse (defaultDay : ℕ) (s : String) : Option ℤ :=
  let ls := s.data.takeWhile Char.isAlpha
  let r1 := s.data.drop ls.length
  let r2 := match r1 with
    | '.' :: r => r
    | r => r
  let r3 := r2.dropWhile pySpace
  let ds := r3.takeWhile Char.isDigit
  match monthTable.lookup (String.mk (ls.map Char.toLower)) with
  | none => none
  | some m =>
    if ds.length = 4 ∧ r3.drop ds.length = [] then
      some (daysFromCivil (natOfDigits ds) m defaultDay)
    else none

/-- Concrete ambient context for closed evaluations: dateutil month
parsing with the day of month defaulting to the 15th, and a fixed
"now". -/
def sampleCtx : ParseCtx :=
  { parse := dateutilParse 15, now := daysFromCivil 2026 10 12 }

/-- Acceptance of Python `float` on the capture language
`\d+(\.\d+)?` of the explicit-experience regex: a digit run, optionally
followed by a dot and a non-empty digit run, and nothing else. -/
def validDec (l : List Char) : Bool :=
  !(l.takeWhile Char.isDigit).isEmpty &&
    ((l.drop (l.takeWhile Char.isDigit).length).isEmpty ||
      ((l.drop (l.takeWhile Char.isDigit).length).head? = some '.' &&
        !(l.drop (l.takeWhile Char.isDigit).length).tail.isEmpty &&
        (l.drop (l.takeWhile Char.isDigit).length).tail.all Char.isDigit))

/-- Python `float(s)` with its `ValueError`: the error is the raise the
source guards with `try`/`except ValueError`. -/
def parseDecE (s : String) : Except String ℚ :=
  if validDec s.data then Except.ok (parseDec s) else Except.error "ValueError"

/-- Python `dateutil.parser.parse` with its raise on unparseable input,
the raise the interval loop guards with `try`/`except`. -/
def parseE (ctx : ParseCtx) (s : String) : Except String ℤ :=
  match ctx.parse s with
  | some d => Except.ok d
  | none => Except.error "ParserError"

/-- The body of the interval loop with its exceptions explicit: the
`try`/`except Exception: continue` of the source is the `toOption` that
turns any raise into skipping the range. -/
def rangeIntervalE (ctx : ParseCtx) (se : String × String) : Option (ℤ × ℤ) :=
  (match parseE ctx se.1 with
    | Except.error e => Except.error e
    | Except.ok sd =>
      match (if pyContains (lowerL se.2) "present".data then Except.ok ctx.now
             else parseE ctx se.2) with
      | Except.error e => Except.error e
      | Except.ok ed => (Except.ok (sd, ed) : Except String (ℤ × ℤ))).toOption

/-- Embedding of `utils.extract_years_experience` with every
exception-raising operation explicit in the `Except` monad: `float` can
raise `ValueError` (caught by falling through to the date tier, as in the
source) and the date parser can raise (caught per range).  An uncaught
exception would surface as `Except.error`. -/
def extract_years_experienceE (ctx : ParseCtx) (text : String) : Except String (Option ℚ) :=
  let explicit_matches := findExplicit (text.data.length + 1) text.data
  let dateTier : Except String (Option ℚ) :=
    let intervals := (findDateRanges (text.data.length + 1) text.data).filterMap
      (rangeIntervalE ctx)
    if intervals ≠ [] then
      Except.ok (some (round1
        (((((mergeLoop (sortIntervals intervals)).map (fun p => p.2 - p.1)).sum : ℤ) : ℚ)
          / (365.25 : ℚ))))
    else Except.ok none
  if explicit_matches ≠ [] then
    match explicit_matches.mapM parseDecE with
    | Except.ok years_list => Except.ok (some (round1 (maxQ years_list)))
    | Except.error _ => dateTier
  else dateTier

lemma expComponentSpec_nonneg (c r : ℕ) : 0 ≤ expComponentSpec c r := by
  unfold expComponentSpec
  split_ifs <;> positivity

lemma expComponentSpec_le_100 (c r : ℕ) : expComponentSpec c r ≤ 100 := by
  unfold expComponentSpec
  split_ifs with h1 h2
  · norm_num
  · norm_num
  · have hr : 0 < (r : ℚ) := by
      have h3 : 0 < r := Nat.pos_of_ne_zero h1
      exact_mod_cast h3
    have hcr : (c : ℚ) ≤ (r : ℚ) := by
      have h4 : c ≤ r := Nat.le_of_lt (Nat.lt_of_not_le h2)
      exact_mod_cast h4
    have h3 : (c : ℚ) / (r : ℚ) ≤ 1 := div_le_one_of_le hcr (le_of_lt hr)
    nlinarith

lemma sum_map_const_three (l : List (List Char)) : (l.map (fun _ => 3)).sum = 3 * l.length := by
  induction l with
  | nil => simp
  | cons a t ih =>
    simp [ih, Nat.mul_succ]
    omega

lemma skillsComponentSpec_nonneg (rt : String) (sk : List String) :
    0 ≤ skillsComponentSpec rt sk := by
  unfold skillsComponentSpec
  split_ifs <;> positivity

lemma skillsComponentSpec_le_100 (rt : String) (sk : List String) :
    skillsComponentSpec rt sk ≤ 100 := by
  unfold skillsComponentSpec
  split_ifs with h
  · norm_num
  · have hlen : 0 < (sk.map lowerL).length := by
      rw [List.length_map]
      exact List.length_pos.mpr h
    have hsum : ((sk.map lowerL).map (fun s => min 3 (pyCount (lowerL rt) s))).sum
        ≤ 3 * (sk.map lowerL).length := by
      calc ((sk.map lowerL).map (fun s => min 3 (pyCount (lowerL rt) s))).sum
          ≤ ((sk.map lowerL).map (fun _ => 3)).sum := by
            apply List.sum_le_sum
            intro i _
            exact min_le_left _ _
        _ = 3 * (sk.map lowerL).length := sum_map_const_three _
    have hpos : (0 : ℚ) < ((3 * (sk.map lowerL).length : ℕ) : ℚ) := by
      have h5 : 0 < 3 * (sk.map lowerL).length := by omega
      exact_mod_cast h5
    have hq : ((((sk.map lowerL).map (fun s => min 3 (pyCount (lowerL rt) s))).sum : ℕ) : ℚ)
        ≤ ((3 * (sk.map lowerL).length : ℕ) : ℚ) := by exact_mod_cast hsum
    have hdiv : ((((sk.map lowerL).map (fun s => min 3 (pyCount (lowerL rt) s))).sum : ℕ) : ℚ)
        / ((3 * (sk.map lowerL).length : ℕ) : ℚ) ≤ 1 := div_le_one_of_le hq (le_of_lt hpos)
    nlinarith

lemma gate_iff (rt : String) (sk : List String) :
    (0 < (sk.map lowerL).length ∧
        (sk.map lowerL).countP (fun s => decide (0 < pyCount (lowerL rt) s)) = 0) ↔
      zeroEvidenceGate rt sk := by
  unfold zeroEvidenceGate
  constructor
  · rintro ⟨h1, h2⟩
    constructor
    · intro hnil
      rw [hnil] at h1
      simp at h1
    · intro s hs
      have h3 := List.countP_eq_zero.mp h2 (lowerL s) (List.mem_map_of_mem _ hs)
      simp only [decide_eq_true_eq, not_lt, Nat.le_zero] at h3
      exact h3
  · rintro ⟨h1, h2⟩
    constructor
    · rw [List.length_map]
      exact List.length_pos.mpr h1
    · apply List.countP_eq_zero.mpr
      intro a ha
      rcases List.mem_map.mp ha with ⟨s, hs, rfl⟩
      simp [h2 s hs]

lemma exp_code_eq (c r : ℕ) :
    (if r = 0 ∨ r ≤ c then (100 : ℚ) else (c : ℚ) / (r : ℚ) * 100) = expComponentSpec c r := by
  unfold expComponentSpec
  by_cases h0 : r = 0
  · simp [h0]
  · by_cases h1 : r ≤ c
    · simp [h0, h1]
    · simp [h0, h1]

lemma skills_code_eq (rt : String) (sk : List String) :
    (if 3 * (sk.map lowerL).length ≠ 0 then
        ((((sk.map lowerL).map (fun s => min 3 (pyCount (lowerL rt) s))).sum : ℕ) : ℚ)
          / ((3 * (sk.map lowerL).length : ℕ) : ℚ) * 100
      else 0) = skillsComponentSpec rt sk := by
  unfold skillsComponentSpec
  by_cases hnil : sk = []
  · simp [hnil]
  · have h1 : 3 * (sk.map lowerL).length ≠ 0 := by
      have h2 : 0 < (sk.map lowerL).length := by
        rw [List.length_map]
        exact List.length_pos.mpr hnil
      omega
    rw [if_pos h1, if_neg hnil]

/-- Normal form of the scorer: the gate, then the weighted combination of
the two components, clamped at 100.  Shared bridge between the scorer as
written in the source and the spec-side components. -/
lemma calculate_similarity_score_eq (rt jt : String) (sk : List String) (ry jy : String) :
    calculate_similarity_score rt jt sk ry jy =
      if zeroEvidenceGate rt sk then 0
      else
        min ((4 / 10 : ℚ) * expComponentSpec ((firstNat ry).getD 0) ((firstNat jy).getD 0)
              + (6 / 10 : ℚ) * skillsComponentSpec rt sk) 100 := by
  simp only [calculate_similarity_score]
  by_cases hg : zeroEvidenceGate rt sk
  · rw [if_pos ((gate_iff rt sk).mpr hg), if_pos hg]
  · rw [if_neg (fun h => hg ((gate_iff rt sk).mp h)), if_neg hg]
    rw [exp_code_eq, skills_code_eq]

/-- C1: for every resume text, job-description text, required-skill list
and arbitrary candidate/required year strings, the similarity score lies
between 0 and 100. -/
theorem C1_score_bounds (rt jt : String) (sk : List String) (ry jy : String) :
    0 ≤ calculate_similarity_score rt jt sk ry jy ∧
      calculate_similarity_score rt jt sk ry jy ≤ 100 := by
  rw [calculate_similarity_score_eq]
  split_ifs with h
  · norm_num
  · constructor
    · apply le_min
      · have h1 := expComponentSpec_nonneg ((firstNat ry).getD 0) ((firstNat jy).getD 0)
        have h2 := skillsComponentSpec_nonneg rt sk
        nlinarith
      · norm_num
    · exact min_le_right _ _

/-- C2: when the required-skill list is non-empty and no required skill
occurs case-insensitively in the resume text, the score is exactly 0,
whatever the experience inputs are. -/
theorem C2_zero_evidence_gate (rt jt : String) (sk : List String) (ry jy : String)
    (hne : sk ≠ []) (hno : ∀ s ∈ sk, pyCount (lowerL rt) (lowerL s) = 0) :
    calculate_similarity_score rt jt sk ry jy = 0 := by
  rw [calculate_similarity_score_eq]
  exact if_pos ⟨hne, hno⟩

theorem C2_zero_evidence_gate_witness :
    (["zzz"] : List String) ≠ [] ∧
      (∀ s ∈ (["zzz"] : List String), pyCount (lowerL "hello") (lowerL s) = 0) ∧
      calculate_similarity_score "hello" "jd" ["zzz"] "3 years" "5" = 0 := by
  refine ⟨by decide, by decide, ?_⟩
  exact C2_zero_evidence_gate "hello" "jd" ["zzz"] "3 years" "5" (by decide) (by decide)

/-- C6: the experience component of the scorer, stated through the
spec-side definition `expComponentSpec` and the first-integer parse
`firstNat`, together with the boundary examples of the spec. -/
theorem C6_experience_component :
    (∀ (rt jt : String) (sk : List String) (ry jy : String),
        calculate_similarity_score rt jt sk ry jy =
          if zeroEvidenceGate rt sk then 0
          else
            min ((4 / 10 : ℚ) * expComponentSpec ((firstNat ry).getD 0) ((firstNat jy).getD 0)
                  + (6 / 10 : ℚ) * skillsComponentSpec rt sk) 100) ∧
      expComponentSpec 5 5 = 100 ∧ expComponentSpec 2 4 = 50 ∧
      (∀ c, expComponentSpec c 0 = 100) ∧
      (firstNat "7.5").getD 0 = 7 ∧ (firstNat "no digits at all").getD 0 = 0 := by
  refine ⟨calculate_similarity_score_eq, ?_, ?_, ?_, by decide, by decide⟩
  · norm_num [expComponentSpec]
  · norm_num [expComponentSpec]
  · intro c
    simp [expComponentSpec]

lemma resonantAux_spec (cnt : List Char → ℕ) (l : List (List Char)) :
    ∀ (mx : ℕ) (res : Option (List Char)),
      (specMaxCount cnt l ≤ mx → resonantAux cnt l mx res = res) ∧
      (mx < specMaxCount cnt l →
        resonantAux cnt l mx res = l.find? (fun s => cnt s == specMaxCount cnt l)) := by
  induction l with
  | nil =>
    intro mx res
    refine ⟨fun _ => rfl, fun h => ?_⟩
    simp [specMaxCount] at h
  | cons s t ih =>
    intro mx res
    have hmax : specMaxCount cnt (s :: t) = max (cnt s) (specMaxCount cnt t) := rfl
    constructor
    · intro h
      rw [hmax] at h
      have hs : ¬ mx < cnt s := by omega
      have ht : specMaxCount cnt t ≤ mx := le_trans (le_max_right _ _) h
      simp only [resonantAux, if_neg hs]
      exact (ih mx res).1 ht
    · intro h
      rw [hmax] at h
      by_cases hs : mx < cnt s
      · simp only [resonantAux, if_pos hs]
        by_cases hts : specMaxCount cnt t ≤ cnt s
        · have hM : specMaxCount cnt (s :: t) = cnt s := by
            rw [hmax]
            omega
          rw [hM]
          rw [(ih (cnt s) (some s)).1 hts]
          rw [List.find?_cons_of_pos _ (by simp)]
        · have hlt : cnt s < specMaxCount cnt t := Nat.lt_of_not_le hts
          have hM : specMaxCount cnt (s :: t) = specMaxCount cnt t := by
            rw [hmax]
            omega
          rw [hM]
          rw [(ih (cnt s) (some s)).2 hlt]
          rw [List.find?_cons_of_neg _ (by simp; omega)]
      · have hsm : cnt s ≤ mx := Nat.le_of_not_lt hs
        have hlt : mx < specMaxCount cnt t := by omega
        have hM : specMaxCount cnt (s :: t) = specMaxCount cnt t := by
          rw [hmax]
          omega
        rw [hM]
        simp only [resonantAux, if_neg hs]
        rw [(ih mx res).2 hlt]
        rw [List.find?_cons_of_neg _ (by simp; omega)]

/-- Shared bridge: the source loop of `get_resonant_skill` computes the
first-attained argmax described by the spec. -/
lemma get_resonant_skill_eq (rt : String) (sk : List String) :
    get_resonant_skill rt sk = resonantSpec rt sk := by
  unfold get_resonant_skill resonantSpec
  by_cases h : specMaxCount (fun s => pyCount (lowerL rt) s) (sk.map lowerL) = 0
  · rw [if_pos h]
    rw [(resonantAux_spec _ _ 0 none).1 (le_of_eq h)]
    rfl
  · rw [if_neg h]
    rw [(resonantAux_spec _ _ 0 none).2 (Nat.pos_of_ne_zero h)]

/-- C7 counterexample: the loop returns the lower-cased skill string, so
with required skills `["Python", "Go"]` and a resume mentioning "python"
five times and "go" once, the returned value is `"python"`, not the
original-case `"Python"` the claim asserts. -/
theorem C7_counterexample :
    get_resonant_skill "python python python python python go" ["Python", "Go"] =
        some "python" ∧
      some "python" ≠ some "Python" := by
  refine ⟨by decide, by decide⟩

/-- C7 amended: `get_resonant_skill` returns the lower-cased form of the
required skill with the highest uncapped occurrence count in the
lower-cased resume text, keeping the first-encountered skill on ties and
returning `none` when all counts are zero; on the spec's example the
result is the lower-cased `"python"`. -/
theorem C7_resonant_amended :
    (∀ (rt : String) (sk : List String), get_resonant_skill rt sk = resonantSpec rt sk) ∧
      get_resonant_skill "python python python python python go" ["Python", "Go"] =
        some "python" := by
  refine ⟨get_resonant_skill_eq, by decide⟩

lemma filter_orderedInsert (s : ℚ) (x : MatchResult) (L : List MatchResult) :
    (L.orderedInsert scoreGE x).filter (fun y => decide (y.score = s)) =
      (x :: L).filter (fun y => decide (y.score = s)) := by
  induction L with
  | nil => rfl
  | cons b L ih =>
    by_cases h : scoreGE x b
    · simp only [List.orderedInsert, if_pos h]
    · simp only [List.orderedInsert, if_neg h]
      have hlt : x.score < b.score := lt_of_not_le h
      by_cases pb : b.score = s
      · by_cases px : x.score = s
        · exact absurd (px.trans pb.symm) (ne_of_lt hlt)
        · simp [List.filter_cons, pb, px, ih]
      · simp [List.filter_cons, pb, ih]

lemma filter_rankResults (l : List MatchResult) (s : ℚ) :
    (rankResults l).filter (fun y => decide (y.score = s)) =
      l.filter (fun y => decide (y.score = s)) := by
  induction l with
  | nil => rfl
  | cons x t ih =>
    have h1 : rankResults (x :: t) = (rankResults t).orderedInsert scoreGE x := rfl
    rw [h1, filter_orderedInsert]
    simp only [List.filter_cons]
    rw [ih]

/-- C9: the ranking step is a stable descending sort: the output is a
permutation of the input, sorted descending by score, the subsequence of
results carrying any fixed score is preserved, and on input scores
`[50, 80, 50]` the output keeps the two 50-entries in input order. -/
theorem C9_stable_ranking :
    (∀ l : List MatchResult, (rankResults l).Sorted scoreGE) ∧
      (∀ l : List MatchResult, List.Perm (rankResults l) l) ∧
      (∀ (l : List MatchResult) (s : ℚ),
        (rankResults l).filter (fun y => decide (y.score = s)) =
          l.filter (fun y => decide (y.score = s))) ∧
      rankResults
          [⟨"r0", 50, "Good", [], none⟩, ⟨"r1", 80, "Better", [], none⟩,
            ⟨"r2", 50, "Good", [], none⟩] =
        [⟨"r1", 80, "Better", [], none⟩, ⟨"r0", 50, "Good", [], none⟩,
          ⟨"r2", 50, "Good", [], none⟩] := by
  refine ⟨fun l => List.sorted_insertionSort scoreGE l, fun l => List.perm_insertionSort scoreGE l,
    filter_rankResults, by decide⟩

lemma takeWhile_nil_of_not (p : Char → Bool) (l : List Char) (h : ∀ x ∈ l, ¬ p x) :
    l.takeWhile p = [] := by
  cases l with
  | nil => rfl
  | cons c t =>
    have hc : p c = false := by
      have h2 := h c (List.mem_cons_self c t)
      simpa using h2
    simp [List.takeWhile_cons, hc]

lemma pySplitWsAux_no_space :
    ∀ (fuel : Nat) (l : List Char), ∀ p ∈ pySplitWsAux fuel l, ∀ c ∈ p, pySpace c = false := by
  intro fuel
  induction fuel with
  | zero =>
    intro l p hp
    cases l <;> simp [pySplitWsAux] at hp
  | succ fuel ih =>
    intro l p hp
    cases l with
    | nil => simp [pySplitWsAux] at hp
    | cons a t =>
      cases hd : (a :: t).dropWhile pySpace with
      | nil =>
        simp [pySplitWsAux, hd] at hp
      | cons b u =>
        simp only [pySplitWsAux, hd, List.mem_cons] at hp
        rcases hp with rfl | hp2
        · intro c hc
          have h3 := List.mem_takeWhile_imp hc
          simpa using h3
        · exact ih _ p hp2

lemma mem_joinSpace :
    ∀ (parts : List (List Char)) (c : Char), c ∈ joinSpace parts →
      c = ' ' ∨ ∃ p ∈ parts, c ∈ p := by
  intro parts
  induction parts with
  | nil =>
    intro c hc
    simp [joinSpace] at hc
  | cons x rest ih =>
    intro c hc
    cases rest with
    | nil =>
      right
      exact ⟨x, by simp, by simpa [joinSpace] using hc⟩
    | cons y t =>
      simp only [joinSpace, List.mem_append, List.mem_cons] at hc
      rcases hc with hx | hc2
      · right
        exact ⟨x, by simp, hx⟩
      · rcases hc2 with rfl | hj
        · left
          rfl
        · rcases ih c hj with h | ⟨p, hp, hcp⟩
          · left
            exact h
          · right
            exact ⟨p, List.mem_cons_of_mem _ hp, hcp⟩

lemma normalizeWs_ne_newline (s : String) : ∀ c ∈ normalizeWs s, c ≠ '\n' := by
  intro c hc heq
  rcases mem_joinSpace _ c hc with h | ⟨p, hp, hcp⟩
  · subst heq
    exact absurd h (by decide)
  · have h2 := pySplitWsAux_no_space _ _ p hp c hcp
    subst heq
    exact absurd h2 (by decide)

lemma dotPlusCapture_rem (r2 : List Char) (h : ∀ c ∈ r2, c ≠ '\n') (cap rem : List Char)
    (he : dotPlusCapture r2 = some (cap, rem)) : rem = [] := by
  simp only [dotPlusCapture] at he
  cases hrest : r2.dropWhile pySpace with
  | cons b u =>
    rw [hrest] at he
    simp only [Option.some.injEq, Prod.mk.injEq] at he
    rw [← he.2]
    apply List.dropWhile_eq_nil_iff.mpr
    intro x hx
    have hx2 : x ∈ r2 := (List.dropWhile_sublist _).mem (hrest ▸ hx)
    simpa using h x hx2
  | nil =>
    rw [hrest] at he
    cases hws : r2.reverse.dropWhile (fun c => c == '\n') with
    | nil =>
      rw [hws] at he
      exact absurd he (by simp)
    | cons c w =>
      rw [hws] at he
      simp only [Option.some.injEq, Prod.mk.injEq] at he
      rw [← he.2]
      have h4 : r2.reverse.takeWhile (fun c => c == '\n') = [] := by
        apply takeWhile_nil_of_not
        intro x hx
        have hx2 : x ∈ r2 := List.mem_reverse.mp hx
        simpa using h x hx2
      simp [h4]

lemma headerTail_rem (k l : List Char) (h : ∀ c ∈ l, c ≠ '\n') (cap rem : List Char)
    (he : headerTail k l = some (cap, rem)) : rem = [] := by
  unfold headerTail at he
  by_cases hp : ciPrefix k l
  · rw [if_pos hp] at he
    cases hd : (l.drop k.length).dropWhile pySpace with
    | nil =>
      rw [hd] at he
      exact absurd he (by simp)
    | cons c r2 =>
      rw [hd] at he
      have he2 : (if c = ':' ∨ c = '-' then dotPlusCapture r2 else none) = some (cap, rem) := he
      by_cases hc : c = ':' ∨ c = '-'
      · rw [if_pos hc] at he2
        apply dotPlusCapture_rem r2 _ cap rem he2
        intro x hx
        apply h
        have hx2 : x ∈ c :: r2 := List.mem_cons_of_mem _ hx
        rw [← hd] at hx2
        exact List.mem_of_mem_drop ((List.dropWhile_sublist _).mem hx2)
      · rw [if_neg hc] at he2
        exact absurd he2 (by simp)
  · rw [if_neg hp] at he
    exact absurd he (by simp)

lemma tryHeaderList_rem (ks : List String) (l : List Char) (h : ∀ c ∈ l, c ≠ '\n')
    (cap rem : List Char) (he : tryHeaderList ks l = some (cap, rem)) : rem = [] := by
  induction ks with
  | nil => exact absurd he (by simp [tryHeaderList])
  | cons k ks ih =>
    simp only [tryHeaderList] at he
    cases hk : headerTail k.data l with
    | some r =>
      rw [hk] at he
      obtain ⟨c1, r1⟩ := r
      have he2 : some (c1, r1) = some (cap, rem) := he
      simp only [Option.some.injEq, Prod.mk.injEq] at he2
      have h2 := headerTail_rem k.data l h c1 r1 hk
      rw [← he2.2]
      exact h2
    | none =>
      rw [hk] at he
      have he2 : tryHeaderList ks l = some (cap, rem) := he
      exact ih he2

lemma findSkillCaptures_nil (fuel : Nat) : findSkillCaptures fuel [] = [] := by
  cases fuel <;> rfl

lemma findSkillCaptures_first :
    ∀ (fuel : Nat) (l : List Char), l.length ≤ fuel → (∀ c ∈ l, c ≠ '\n') →
      findSkillCaptures fuel l =
        match scanFirstHeader l with
        | none => []
        | some (cap, _) => [cap] := by
  intro fuel
  induction fuel with
  | zero =>
    intro l hl _
    have h0 : l = [] := List.length_eq_zero.mp (Nat.le_zero.mp hl)
    subst h0
    rfl
  | succ fuel ih =>
    intro l hl hn
    cases l with
    | nil => rfl
    | cons a t =>
      cases hth : tryHeaderAt (a :: t) with
      | some r =>
        obtain ⟨cap, rem⟩ := r
        have hrem : rem = [] := tryHeaderList_rem header_keywords (a :: t) hn cap rem hth
        subst hrem
        simp [findSkillCaptures, scanFirstHeader, hth, findSkillCaptures_nil]
      | none =>
        have ht : findSkillCaptures (fuel + 1) (a :: t) = findSkillCaptures fuel t := by
          simp [findSkillCaptures, hth]
        have hs : scanFirstHeader (a :: t) = scanFirstHeader t := by
          simp [scanFirstHeader, hth]
        rw [ht, hs]
        exact ih t (by simpa using Nat.le_of_succ_le_succ (by simpa using hl))
          (fun c hc => hn c (List.mem_cons_of_mem _ hc))

/-- Shared bridge: the extractor's `findall` loop produces at most the
single leftmost capture, which runs to the end of the normalized text. -/
lemma extract_skills_eq_spec (text : String) :
    extract_skills_from_text text = specSkillsAmended text := by
  simp only [extract_skills_from_text, specSkillsAmended]
  have hn := normalizeWs_ne_newline text
  rw [findSkillCaptures_first ((normalizeWs text).length + 1) (normalizeWs text)
    (by omega) hn]
  cases hs : scanFirstHeader (normalizeWs text) with
  | none => simp
  | some r =>
    obtain ⟨cap, rem⟩ := r
    simp

/-- C3 counterexample: on the spec's own example text the extractor does
not return the set `{"Python", "Go", "Rust"}` — the greedy `(.+)` capture
runs to the end of the (whitespace-collapsed) text, so the last token is
`"Rust Other text"`. -/
theorem C3_counterexample :
    (extract_skills_from_text "Technical Skills: Python, Go; Rust\nOther text").toFinset ≠
      ({"Python", "Go", "Rust"} : Finset String) := by
  decide

/-- C3 amended: the extractor collapses whitespace runs, finds the first
header phrase followed by a colon or hyphen, captures the span after it
up to the END of the text (not up to the next header), splits on
comma/semicolon/newline, trims, drops empties and returns the set; on the
example text it returns `{"Python", "Go", "Rust Other text"}`. -/
theorem C3_skills_amended :
    (∀ text : String, extract_skills_from_text text = specSkillsAmended text) ∧
      (extract_skills_from_text "Technical Skills: Python, Go; Rust\nOther text").toFinset =
        ({"Python", "Go", "Rust Other text"} : Finset String) := by
  refine ⟨extract_skills_eq_spec, by decide⟩

/-- C8 counterexample: `extract_emails` returns the list of matches, not
a set — a text containing the same address twice yields it twice, so
duplicates are not collapsed. -/
theorem C8_counterexample :
    extract_emails "a@bb.cc a@bb.cc" = ["a@bb.cc", "a@bb.cc"] ∧
      ¬ (extract_emails "a@bb.cc a@bb.cc").Nodup := by
  refine ⟨by decide, by decide⟩

/-- C8 amended: `extract_emails` returns the LIST of email-shaped matches
in text order (duplicates preserved, not collapsed into a set), with all
internal whitespace removed from each match; an empty result for text
with no email is a valid return, and the PDF-mangled
`"john. doe @ example . com"` yields `"john.doe@example.com"`. -/
theorem C8_emails_amended :
    (∀ (text e : String), e ∈ extract_emails text → ∀ c ∈ e.data, ¬ pySpace c) ∧
      extract_emails "john. doe @ example . com" = ["john.doe@example.com"] ∧
      extract_emails "no email here" = [] := by
  refine ⟨?_, by decide, by decide⟩
  intro text e he c hc
  simp only [extract_emails, List.mem_map] at he
  rcases he with ⟨m, _, rfl⟩
  have hc2 : c ∈ m.filter (fun c => !pySpace c) := hc
  have h3 := List.of_mem_filter hc2
  simpa using h3

theorem C8_emails_amended_witness :
    ("john.doe@example.com" ∈ extract_emails "john. doe @ example . com") ∧
      ('j' ∈ ("john.doe@example.com" : String).data) ∧ ¬ pySpace 'j' :=
  ⟨by decide, by decide,
    C8_emails_amended.1 "john. doe @ example . com" "john.doe@example.com" (by decide) 'j'
      (by decide)⟩

lemma mergeStep_concat (acc : List (ℤ × ℤ)) (r x : ℤ × ℤ) :
    mergeStep (acc ++ [r]) x =
      if x.1 ≤ r.2 then acc ++ [(r.1, max r.2 x.2)] else (acc ++ [r]) ++ [x] := by
  simp [mergeStep, List.getLast?_concat, List.dropLast_concat]

lemma foldl_mergeStep :
    ∀ (t : List (ℤ × ℤ)) (acc : List (ℤ × ℤ)) (r : ℤ × ℤ),
      t.foldl mergeStep (acc ++ [r]) = acc ++ mergeSpec r t := by
  intro t
  induction t with
  | nil =>
    intro acc r
    simp [mergeSpec]
  | cons x xs ih =>
    intro acc r
    rw [List.foldl_cons, mergeStep_concat]
    by_cases hc : x.1 ≤ r.2
    · rw [if_pos hc, ih acc (r.1, max r.2 x.2)]
      simp [mergeSpec, hc]
    · rw [if_neg hc, ih (acc ++ [r]) x]
      simp [mergeSpec, hc]

/-- Shared bridge: the in-place merge loop of the source equals the
recursive running-interval merge of the spec. -/
lemma mergeLoop_eq_mergeSpec (h : ℤ × ℤ) (t : List (ℤ × ℤ)) :
    mergeLoop (h :: t) = mergeSpec h t := by
  have h1 := foldl_mergeStep t [] h
  simpa [mergeLoop] using h1

lemma sortIntervals_ne_nil (l : List (ℤ × ℤ)) (h : l ≠ []) : sortIntervals l ≠ [] := by
  intro h0
  apply h
  have hp : List.Perm (sortIntervals l) l := List.perm_insertionSort _ l
  rw [h0] at hp
  exact hp.symm.eq_nil

/-- C4: the experience extractor implements the spec's two-tier
definition — the rounded maximum of the explicit matches when tier 1
fires, otherwise the sorted-and-merged interval total over 365.25, and
unknown when neither tier yields data. -/
theorem C4_two_tier (ctx : ParseCtx) (text : String) :
    extract_years_experience ctx text = extractYearsSpec ctx text := by
  simp only [extract_years_experience, extractYearsSpec]
  by_cases hm : findExplicit (text.data.length + 1) text.data = []
  · have hv : (findExplicit (text.data.length + 1) text.data).map parseDec = [] := by
      rw [hm]
      rfl
    rw [if_neg (fun hne => hne hm)]
    by_cases hi : parsedIntervals ctx text = []
    · rw [if_neg (fun hne => hne hi), if_neg (fun hne => hne hv)]
      have hs : sortIntervals (parsedIntervals ctx text) = [] := by
        rw [hi]
        rfl
      rw [hs]
    · rw [if_pos hi, if_neg (fun hne => hne hv)]
      cases hsv : sortIntervals (parsedIntervals ctx text) with
      | nil => exact absurd hsv (sortIntervals_ne_nil _ hi)
      | cons h t =>
        rw [mergeLoop_eq_mergeSpec]
  · have hv : (findExplicit (text.data.length + 1) text.data).map parseDec ≠ [] := by
      intro h0
      exact hm (List.map_eq_nil.mp h0)
    rw [if_pos hm, if_pos hv]

lemma parseDec_nonneg (s : String) : 0 ≤ parseDec s := by
  simp only [parseDec]
  split_ifs <;> positivity

lemma le_foldl_max (acc : ℚ) (t : List ℚ) : acc ≤ t.foldl max acc := by
  induction t generalizing acc with
  | nil => simp
  | cons x xs ih => exact le_trans (le_max_left acc x) (ih (max acc x))

lemma maxQ_nonneg (l : List ℚ) (h : ∀ x ∈ l, 0 ≤ x) : 0 ≤ maxQ l := by
  cases l with
  | nil => simp [maxQ]
  | cons x t => exact le_trans (h x (by simp)) (le_foldl_max x t)

lemma rhe_nonneg (x : ℚ) (h : 0 ≤ x) : 0 ≤ rhe x := by
  simp only [rhe]
  have hf : 0 ≤ ⌊x⌋ := Int.floor_nonneg.mpr h
  split_ifs <;> omega

lemma round1_nonneg (x : ℚ) (h : 0 ≤ x) : 0 ≤ round1 x := by
  have h1 : 0 ≤ rhe (10 * x) := rhe_nonneg (10 * x) (by positivity)
  have h2 : (0 : ℚ) ≤ (rhe (10 * x) : ℚ) := by exact_mod_cast h1
  simp only [round1]
  positivity

lemma mergeSpec_wf :
    ∀ (t : List (ℤ × ℤ)) (r : ℤ × ℤ), r.1 ≤ r.2 → (∀ x ∈ t, x.1 ≤ x.2) →
      ∀ p ∈ mergeSpec r t, p.1 ≤ p.2 := by
  intro t
  induction t with
  | nil =>
    intro r hr _ p hp
    simp only [mergeSpec, List.mem_singleton] at hp
    exact hp ▸ hr
  | cons x xs ih =>
    intro r hr hx p hp
    simp only [mergeSpec] at hp
    by_cases hc : x.1 ≤ r.2
    · rw [if_pos hc] at hp
      refine ih (r.1, max r.2 x.2) (le_trans hr (le_max_left _ _))
        (fun z hz => hx z (List.mem_cons_of_mem _ hz)) p hp
    · rw [if_neg hc] at hp
      rcases List.mem_cons.mp hp with rfl | hp2
      · exact hr
      · exact ih x (hx x (by simp)) (fun z hz => hx z (List.mem_cons_of_mem _ hz)) p hp2

set_option maxRecDepth 8000 in
/-- C5 counterexample: a resume whose only date range runs backwards
("Mar 2020 - Jan 2019") makes the extractor return a NEGATIVE number of
years (-1.2), contradicting the claim that the result is never
negative. -/
theorem C5_counterexample :
    extract_years_experience sampleCtx "Mar 2020 - Jan 2019" = some (-(6 / 5 : ℚ)) ∧
      (-(6 / 5 : ℚ)) < 0 := by
  refine ⟨by with_unfolding_all decide, by with_unfolding_all decide⟩

/-- C5 amended: the extractor returns unknown (none) or a non-negative
number PROVIDED every parsed date interval has its start at or before its
end (tier 1 is unconditionally non-negative); a range whose end precedes
its start can make the result negative, as the counterexample shows. -/
theorem C5_nonneg_amended (ctx : ParseCtx) (text : String)
    (h : ∀ iv ∈ parsedIntervals ctx text, iv.1 ≤ iv.2) :
    ∀ y, extract_years_experience ctx text = some y → 0 ≤ y := by
  intro y hy
  simp only [extract_years_experience] at hy
  by_cases hm : findExplicit (text.data.length + 1) text.data = []
  · rw [if_neg (fun hne => hne hm)] at hy
    by_cases hi : parsedIntervals ctx text = []
    · rw [if_neg (fun hne => hne hi)] at hy
      exact absurd hy (by simp)
    · rw [if_pos hi] at hy
      cases hsv : sortIntervals (parsedIntervals ctx text) with
      | nil => exact absurd hsv (sortIntervals_ne_nil _ hi)
      | cons hd tl =>
        rw [hsv, mergeLoop_eq_mergeSpec] at hy
        have hmem : ∀ x ∈ hd :: tl, x.1 ≤ x.2 := by
          intro x hx
          apply h
          have hx2 : x ∈ sortIntervals (parsedIntervals ctx text) := by
            rw [hsv]
            exact hx
          exact (List.perm_insertionSort (fun a b : ℤ × ℤ => a.1 ≤ b.1)
            (parsedIntervals ctx text)).mem_iff.mp hx2
        have hwf : ∀ p ∈ mergeSpec hd tl, p.1 ≤ p.2 :=
          mergeSpec_wf tl hd (hmem hd (by simp)) (fun x hx => hmem x (List.mem_cons_of_mem _ hx)) 
        have hsum : 0 ≤ ((mergeSpec hd tl).map (fun p => p.2 - p.1)).sum := by
          apply List.sum_nonneg
          intro z hz
          rcases List.mem_map.mp hz with ⟨p, hp, rfl⟩
          have := hwf p hp
          omega
        have hq : (0 : ℚ) ≤ ((((mergeSpec hd tl).map (fun p => p.2 - p.1)).sum : ℤ) : ℚ) := by
          exact_mod_cast hsum
        have hq2 : (0 : ℚ) ≤ ((((mergeSpec hd tl).map (fun p => p.2 - p.1)).sum : ℤ) : ℚ)
            / (365.25 : ℚ) := div_nonneg hq (by norm_num)
        have h5 := round1_nonneg _ hq2
        injection hy with hy2
        rw [← hy2]
        exact h5
  · rw [if_pos hm] at hy
    injection hy with hy2
    rw [← hy2]
    apply round1_nonneg
    apply maxQ_nonneg
    intro x hx
    rcases List.mem_map.mp hx with ⟨m, _, rfl⟩
    exact parseDec_nonneg m

set_option maxRecDepth 8000 in
theorem C5_nonneg_amended_witness :
    (∀ iv ∈ parsedIntervals sampleCtx "5 years", iv.1 ≤ iv.2) ∧
      extract_years_experience sampleCtx "5 years" = some 5 ∧ (0 : ℚ) ≤ 5 :=
  ⟨by decide, by with_unfolding_all decide,
    C5_nonneg_amended sampleCtx "5 years" (by decide) 5 (by with_unfolding_all decide)⟩

lemma takeWhile_digit_append (ds rest : List Char) (h : ∀ c ∈ ds, Char.isDigit c = true)
    (hr : rest.head? = some '.' ∨ rest = []) :
    (ds ++ rest).takeWhile Char.isDigit = ds ∧ (ds ++ rest).drop ds.length = rest := by
  constructor
  · induction ds with
    | nil =>
      rcases hr with hh | rfl
      · cases rest with
        | nil => simp at hh
        | cons c t =>
          have hc : c = '.' := by simpa using hh
          subst hc
          have hnd : Char.isDigit '.' = false := by decide
          simp [List.takeWhile_cons, hnd]
      · rfl
    | cons d ds ih =>
      have hd : Char.isDigit d = true := h d (by simp)
      simp only [List.cons_append, List.takeWhile_cons, hd, if_true]
      rw [ih (fun c hc => h c (by simp [hc]))]
  · exact List.drop_left ds rest

lemma fracPart_shape (r : List Char) :
    (fracPart r).1 = [] ∨
      ((fracPart r).1.head? = some '.' ∧ (fracPart r).1.tail ≠ [] ∧
        (fracPart r).1.tail.all Char.isDigit = true) := by
  unfold fracPart
  split_ifs with h
  · right
    refine ⟨by simp, ?_, ?_⟩
    · simp only [List.tail_cons]
      intro h0
      rw [h0] at h
      simp at h
    · simp only [List.tail_cons]
      exact List.all_eq_true.mpr (fun c hc => List.mem_takeWhile_imp hc)
  · left
    rfl

lemma validDec_capture (ds fp : List Char) (hne : ds ≠ [])
    (hd : ∀ c ∈ ds, Char.isDigit c = true)
    (hfp : fp = [] ∨ (fp.head? = some '.' ∧ fp.tail ≠ [] ∧ fp.tail.all Char.isDigit = true)) :
    validDec (ds ++ fp) = true := by
  have hhead : fp.head? = some '.' ∨ fp = [] := by
    rcases hfp with rfl | ⟨hh, _, _⟩
    · right
      rfl
    · left
      exact hh
  have h1 := takeWhile_digit_append ds fp hd hhead
  simp only [validDec, h1.1, h1.2]
  rcases hfp with rfl | ⟨hh, ht, ha⟩
  · simp [hne]
  · simp [hne, hh, ht, ha]

lemma tryExplicit_capture (l : List Char) (cap : String) (rem : List Char)
    (he : tryExplicit l = some (cap, rem)) : validDec cap.data = true := by
  simp only [tryExplicit] at he
  by_cases hds : (l.takeWhile Char.isDigit).isEmpty
  · rw [if_pos hds] at he
    exact absurd he (by simp)
  · rw [if_neg hds] at he
    cases hy : yearsKw ((if (fracPart (l.drop (l.takeWhile Char.isDigit).length)).2.head? = some '+'
        then (fracPart (l.drop (l.takeWhile Char.isDigit).length)).2.tail
        else (fracPart (l.drop (l.takeWhile Char.isDigit).length)).2).dropWhile pySpace) with
    | none =>
      rw [hy] at he
      exact absurd he (by simp)
    | some r6 =>
      rw [hy] at he
      have he2 : some (String.mk (l.takeWhile Char.isDigit ++
          (fracPart (l.drop (l.takeWhile Char.isDigit).length)).1),
            ofExpKw (r6.dropWhile pySpace)) = some (cap, rem) := he
      have he3 := Option.some.inj he2
      have hcap : String.mk (l.takeWhile Char.isDigit ++
          (fracPart (l.drop (l.takeWhile Char.isDigit).length)).1) = cap :=
        congrArg Prod.fst he3
      rw [← hcap]
      show validDec (l.takeWhile Char.isDigit ++
        (fracPart (l.drop (l.takeWhile Char.isDigit).length)).1) = true
      apply validDec_capture
      · intro h0
        rw [h0] at hds
        simp at hds
      · intro c hc
        exact List.mem_takeWhile_imp hc
      · exact fracPart_shape _

lemma findExplicit_valid :
    ∀ (fuel : Nat) (l : List Char), ∀ s ∈ findExplicit fuel l, validDec s.data = true := by
  intro fuel
  induction fuel with
  | zero =>
    intro l s hs
    simp [findExplicit] at hs
  | succ fuel ih =>
    intro l s hs
    cases l with
    | nil => simp [findExplicit] at hs
    | cons a t =>
      cases ht : tryExplicit (a :: t) with
      | some pr =>
        obtain ⟨cap, rem⟩ := pr
        simp only [findExplicit, ht, List.mem_cons] at hs
        rcases hs with rfl | hs2
        · exact tryExplicit_capture (a :: t) s rem ht
        · exact ih rem s hs2
      | none =>
        simp only [findExplicit, ht] at hs
        exact ih t s hs

lemma mapM_parseDecE (ms : List String) (h : ∀ m ∈ ms, validDec m.data = true) :
    ms.mapM parseDecE = Except.ok (ms.map parseDec) := by
  induction ms with
  | nil => rfl
  | cons x t ih =>
    have hx : parseDecE x = Except.ok (parseDec x) := by
      simp [parseDecE, h x (by simp)]
    rw [List.mapM_cons, hx, ih (fun m hm => h m (by simp [hm]))]
    rfl

lemma rangeIntervalE_eq (ctx : ParseCtx) (se : String × String) :
    rangeIntervalE ctx se = rangeInterval ctx se := by
  simp only [rangeIntervalE, rangeInterval, parseE]
  cases hp : ctx.parse se.1 with
  | none => rfl
  | some sd =>
    by_cases hc : pyContains (lowerL se.2) "present".data
    · simp [hc, Except.toOption]
    · cases hq : ctx.parse se.2 with
      | none => simp [hc, hq, Except.toOption]
      | some ed => simp [hc, hq, Except.toOption]

/-- C10: the experience extractor never surfaces an exception: the
`Except`-level embedding (where `float` and the date parser can raise)
always returns `ok` of the pure result — every range whose bounds fail to
parse is skipped inside the loop, the `float` conversions of the explicit
captures cannot raise — and when neither tier has data the result is the
defined fallback `none`. -/
theorem C10_never_raises :
    (∀ (ctx : ParseCtx) (text : String),
        extract_years_experienceE ctx text = Except.ok (extract_years_experience ctx text)) ∧
      (∀ (ctx : ParseCtx) (text : String),
        findExplicit (text.data.length + 1) text.data = [] →
          parsedIntervals ctx text = [] → extract_years_experience ctx text = none) := by
  constructor
  · intro ctx text
    simp only [extract_years_experienceE, extract_years_experience]
    have hint : (findDateRanges (text.data.length + 1) text.data).filterMap (rangeIntervalE ctx) =
        parsedIntervals ctx text := by
      simp only [parsedIntervals]
      have hfun : rangeIntervalE ctx = rangeInterval ctx := funext (rangeIntervalE_eq ctx)
      rw [hfun]
    rw [hint]
    by_cases hm : findExplicit (text.data.length + 1) text.data = []
    · conv_lhs => rw [if_neg (fun hne => hne hm)]
      conv_rhs => rw [if_neg (fun hne => hne hm)]
      by_cases hi : parsedIntervals ctx text = []
      · rw [if_neg (fun hne => hne hi), if_neg (fun hne => hne hi)]
      · rw [if_pos hi, if_pos hi]
    · conv_lhs => rw [if_pos hm]
      conv_rhs => rw [if_pos hm]
      rw [mapM_parseDecE _ (fun m hm2 => findExplicit_valid _ _ m hm2)]
  · intro ctx text hm hi
    simp only [extract_years_experience]
    rw [if_neg (fun hne => hne hm), if_neg (fun hne => hne hi)]

theorem C10_never_raises_witness :
    extract_years_experienceE sampleCtx "no dates here" =
        Except.ok (extract_years_experience sampleCtx "no dates here") ∧
      findExplicit ("no dates here".data.length + 1) "no dates here".data = [] ∧
      parsedIntervals sampleCtx "no dates here" = [] ∧
      extract_years_experience sampleCtx "no dates here" = none :=
  ⟨C10_never_raises.1 sampleCtx "no dates here", by decide, by decide,
    C10_never_raises.2 sampleCtx "no dates here" (by decide) (by decide)⟩
